import Mathlib

/-!
Verification of the boring-router core: the path-matching algorithm
(`RouteMatch._match`, `Router._match`), the transition orchestrator
(`Router._asyncOnLocationChange`, `Router._update`, `Router._revert`),
the service cache (`RouteMatch._getService`) and the extension getter.

Paths are modelled as `List Char` (JS strings indexed by position);
locations as records of pathname/search/hash; the `history` collaborator
as the list of `replace` calls the orchestrator issues; asynchronous hook
results and staleness checks as explicit input data, in the order the
single serialized pipeline awaits them.
-/

namespace BoringRouter

/-- `testPathPrefix(path, prefix)` from `@utils`: `path.startsWith(prefix) &&
(path.length === prefix.length || path[prefix.length] === '/')`. -/
def testPathPrefix (path pat : List Char) : Bool :=
  pat.isPrefixOf path &&
    (path.length == pat.length || path.get? pat.length == some '/')

/-- A match pattern: a literal segment string, or a non-global regular
expression, modelled by its `exec` behaviour on the remainder (`none` when
`exec` returns no match, `some m` when `groups[0]` is `m`). -/
inductive Pattern where
  | lit (s : List Char)
  | regex (exec : List Char → Option (List Char))

/-- One schema-derived match node: name, match pattern, `_allowExact`
(the schema's `$exact`), whether `_children` is defined (a defined array is
truthy in JS even when empty), and the child list (`_children || []`). -/
inductive Node where
  | mk (name : String) (pattern : Pattern) (allowExact : Bool)
       (hasChildren : Bool) (children : List Node)

def Node.name : Node → String
  | .mk n _ _ _ _ => n

def Node.pattern : Node → Pattern
  | .mk _ p _ _ _ => p

def Node.allowExact : Node → Bool
  | .mk _ _ e _ _ => e

def Node.hasChildren : Node → Bool
  | .mk _ _ _ h _ => h

def Node.children : Node → List Node
  | .mk _ _ _ _ c => c

/-- `RouteMatchInternalResult`: the single-node matcher's output. -/
structure NodeMatchResult where
  matched : Bool
  exactlyMatched : Bool
  segment : Option (List Char)
  rest : List Char
  deriving Repr

/-- The tail of `RouteMatch._match` shared by all branches: compute
`matched`/`exactlyMatched` from `segment`/`rest` and demote both flags when
the node has children and did not opt into exact matching. -/
def finishNodeMatch (segment : Option (List Char)) (rest : List Char)
    (hasChildren allowExact : Bool) : NodeMatchResult :=
  let matched := segment.isSome
  let exactlyMatched := matched && rest.isEmpty
  if exactlyMatched && (hasChildren && !allowExact) then
    ⟨false, false, segment, rest⟩
  else
    ⟨matched, exactlyMatched, segment, rest⟩

/-- `RouteMatch._match(upperRest)`. `none` models the thrown
`Expecting rest of path to be started with "/"` error; otherwise the body:
an empty remainder yields no segment; else the leading `/` is stripped and
the pattern applied with the `testPathPrefix` segment-boundary rule. -/
def routeMatchOne (pattern : Pattern) (hasChildren allowExact : Bool) :
    List Char → Option NodeMatchResult
  | [] => some (finishNodeMatch none [] hasChildren allowExact)
  | c :: cs =>
    if c = '/' then
      let seg : Option (List Char) × List Char :=
        match pattern with
        | .lit p =>
          if testPathPrefix cs p then (some p, cs.drop p.length)
          else (none, [])
        | .regex exec =>
          match exec cs with
          | some m =>
            if testPathPrefix cs m then (some m, cs.drop m.length)
            else (none, [])
          | none => (none, [])
      some (finishNodeMatch seg.1 seg.2 hasChildren allowExact)
    else
      none

/-- `RouteMatchEntry`: `{match, exact, segment}`, the outcome of matching
one path segment against one node (`segment!` is the TS non-null cast). -/
structure Entry where
  node : Node
  segment : List Char
  exact : Bool

/-- `Router._match(target, upperRest)`: depth-first walk over
`target._children || []` in declaration order with backtracking.
`.error ()` models a propagated `Expecting rest of path ...` throw;
`.ok none` models the `undefined` (no chain) outcome. -/
def matchChildren : List Node → List Char → Except Unit (Option (List Entry))
  | [], _ => .ok none
  | .mk nm pat aex hc ch :: siblings, upperRest =>
    match routeMatchOne pat hc aex upperRest with
    | none => .error ()
    | some r =>
      if r.matched then
        if r.exactlyMatched then
          .ok (some [⟨.mk nm pat aex hc ch, r.segment.getD [], true⟩])
        else
          match matchChildren ch r.rest with
          | .error e => .error e
          | .ok none => matchChildren siblings upperRest
          | .ok (some chain) =>
            .ok (some (⟨.mk nm pat aex hc ch, r.segment.getD [], false⟩ :: chain))
      else
        matchChildren siblings upperRest

/-- A well-formed remaining path: empty, or starting with `/` — the
precondition `RouteMatch._match` checks at its entry. -/
def isWfPath (path : List Char) : Bool :=
  path.isEmpty || path.head? == some '/'

/-- All complete root-to-leaf entry chains of a child list against a path,
enumerated depth-first in schema declaration order: the declarative reading
of the tree matcher, used to state that the first chain found wins. -/
def allChains : List Node → List Char → List (List Entry)
  | [], _ => []
  | .mk nm pat aex hc ch :: siblings, upperRest =>
    (match routeMatchOne pat hc aex upperRest with
     | none => []
     | some r =>
       if r.matched then
         if r.exactlyMatched then
           [[⟨.mk nm pat aex hc ch, r.segment.getD [], true⟩]]
         else
           (allChains ch r.rest).map
             (⟨.mk nm pat aex hc ch, r.segment.getD [], false⟩ :: ·)
       else [])
      ++ allChains siblings upperRest

theorem testPathPrefix_drop_wf {cs p : List Char}
    (h : testPathPrefix cs p = true) : isWfPath (cs.drop p.length) = true := by
  simp only [testPathPrefix, Bool.and_eq_true, Bool.or_eq_true, beq_iff_eq,
    Nat.beq_eq_true_eq] at h
  obtain ⟨-, h | h⟩ := h
  · simp [isWfPath, List.drop_eq_nil_iff, h.le]
  · have hd : (cs.drop p.length).head? = some '/' := by
      rw [List.head?_drop]
      simpa using h
    simp [isWfPath, hd]

/-- On any well-formed input the single-node matcher does not throw. -/
theorem routeMatchOne_isSome_of_wf (pat : Pattern) (hc aex : Bool)
    {ur : List Char} (h : isWfPath ur = true) :
    (routeMatchOne pat hc aex ur).isSome = true := by
  cases ur with
  | nil => simp [routeMatchOne]
  | cons c cs =>
    simp only [isWfPath, List.isEmpty_cons, List.head?_cons, Bool.false_or,
      beq_iff_eq, Option.some.injEq] at h
    simp [routeMatchOne, h]

/-- The rest the single-node matcher returns is well formed: either empty
or starting with `/` (the segment-boundary rule guarantees it). -/
theorem routeMatchOne_rest_wf {pat : Pattern} {hc aex : Bool}
    {ur : List Char} {r : NodeMatchResult}
    (h : routeMatchOne pat hc aex ur = some r) : isWfPath r.rest = true := by
  have hfin : ∀ seg rest, isWfPath rest = true →
      isWfPath (finishNodeMatch seg rest hc aex).rest = true := by
    intro seg rest hrest
    unfold finishNodeMatch
    dsimp only
    split <;> simpa
  cases ur with
  | nil =>
    simp only [routeMatchOne, Option.some.injEq] at h
    subst h
    exact hfin none [] (by simp [isWfPath])
  | cons c cs =>
    simp only [routeMatchOne] at h
    split at h
    · simp only [Option.some.injEq] at h
      subst h
      apply hfin
      cases pat with
      | lit p =>
        dsimp only
        split
        · exact testPathPrefix_drop_wf (by assumption)
        · simp [isWfPath]
      | regex exec =>
        dsimp only
        split
        · split
          · exact testPathPrefix_drop_wf (by assumption)
          · simp [isWfPath]
        · simp [isWfPath]
    · exact absurd h (by simp)

/-- The tree matcher computes the head of the declaration-order chain
enumeration: the first complete chain found wins and no error is thrown,
for any well-formed upper path. -/
theorem matchChildren_eq_allChains :
    ∀ (ns : List Node) (path : List Char), isWfPath path = true →
      matchChildren ns path = .ok (allChains ns path).head? := by
  intro ns path
  induction ns, path using matchChildren.induct with
  | case1 path =>
    intro _
    simp [matchChildren, allChains]
  | case2 nm pat aex hc ch siblings upperRest hnone =>
    intro hwf
    have := routeMatchOne_isSome_of_wf pat hc aex hwf
    rw [hnone] at this
    simp at this
  | case3 nm pat aex hc ch siblings upperRest r hr hm he =>
    intro _
    rw [matchChildren, allChains, hr]
    simp [hm, he]
  | case4 nm pat aex hc ch siblings upperRest r hr hm he e herr ih =>
    intro _
    have hwfr : isWfPath r.rest = true := routeMatchOne_rest_wf hr
    rw [ih hwfr] at herr
    simp at herr
  | case5 nm pat aex hc ch siblings upperRest r hr hm he hnone ih ihs =>
    intro hwf
    have hwfr : isWfPath r.rest = true := routeMatchOne_rest_wf hr
    have hch := ih hwfr
    rw [hnone] at hch
    have hempty : allChains ch r.rest = [] := by
      cases hac : allChains ch r.rest with
      | nil => rfl
      | cons a t => rw [hac] at hch; simp at hch
    rw [matchChildren, allChains, hr]
    simp only [hm, if_true, he, if_false, hnone, hempty, List.map_nil,
      List.nil_append]
    exact ihs hwf
  | case6 nm pat aex hc ch siblings upperRest r hr hm he chain hsome ih =>
    intro _
    have hwfr : isWfPath r.rest = true := routeMatchOne_rest_wf hr
    have hch := ih hwfr
    rw [hsome] at hch
    have hcons : ∃ t, allChains ch r.rest = chain :: t := by
      cases hac : allChains ch r.rest with
      | nil => rw [hac] at hch; simp at hch
      | cons a t =>
        rw [hac] at hch
        simp only [Except.ok.injEq, List.head?_cons, Option.some.injEq] at hch
        exact ⟨t, by rw [hch]⟩
    obtain ⟨t, hac⟩ := hcons
    rw [matchChildren, allChains, hr]
    simp [hm, he, hsome, hac]
  | case7 nm pat aex hc ch siblings upperRest r hr hm ihs =>
    intro hwf
    rw [matchChildren, allChains, hr]
    simp only [hm, if_false, List.nil_append]
    exact ihs hwf

/-- A `history` location: pathname, search and hash. -/
structure Location where
  pathname : List Char
  search : List Char
  hash : List Char
  deriving DecidableEq, Repr

/-- `isLocationEqual(left, right)` from `@utils`: field-wise equality of
pathname, search and hash. -/
def isLocationEqual (left right : Location) : Bool :=
  left.pathname == right.pathname && left.search == right.search &&
    left.hash == right.hash

/-- Outcome of one pass over a batch of before-hooks
(`Router._update`'s two loops share this shape): after awaiting each hook,
the staleness check `_isNextLocationOutDated` runs first (`stale k` tells
whether a newer location has been recorded by the time `k` hooks of this
transition have been awaited), then a `false` result triggers the revert. -/
inductive HookPhase where
  | abandoned
  | cancelled
  | passed (hooksRun : Nat)
  deriving DecidableEq, Repr

/-- The loop body shared by `Router._update`'s leaving and entering loops:
`results` are the hook results in execution order, `k` the count of hooks
of this transition already awaited. -/
def runHooks (stale : Nat → Bool) : List Bool → Nat → HookPhase
  | [], k => .passed k
  | r :: rs, k =>
    if stale (k + 1) then .abandoned
    else if !r then .cancelled
    else runHooks stale rs (k + 1)

/-- What one `Router._update` call does that is observable from outside:
the `history.replace` calls issued (`Router._revert`), whether the commit
block ran, and the `RouteMatch._update(matched, exact)` calls made, in
order. -/
structure RouterUpdateResult where
  replaces : List Location
  committed : Bool
  flagUpdates : List (String × Bool × Bool)
  deriving DecidableEq, Repr

/-- `Router._update(nextLocation, group, matchToMatchEntryMap)` for one
group, over explicit transition data: `location` is the committed
`_location` (`none` before the first commit), `defaultLoc` the configured
default, `leaving` the leaving matches in execution order (deepest first)
with their awaited `_beforeLeave` results, `entering` the
entering-or-updating matches with their awaited `_beforeEnter` /
`_beforeUpdate` results, and `next` the full next match set with each
entry's `exact` flag. A cancel replaces with `_location || _default`; a
staleness hit abandons silently; otherwise the commit publishes and flips
the flags: leaving matches get `_update(false, false)`, next matches get
`_update(true, exact)`. -/
def routerUpdate (location : Option Location) (defaultLoc : Location)
    (stale : Nat → Bool) (leaving : List (String × Bool))
    (entering : List (String × Bool)) (next : List (String × Bool)) :
    RouterUpdateResult :=
  match runHooks stale (leaving.map (·.2)) 0 with
  | .abandoned => ⟨[], false, []⟩
  | .cancelled => ⟨[location.getD defaultLoc], false, []⟩
  | .passed k =>
    match runHooks stale (entering.map (·.2)) k with
    | .abandoned => ⟨[], false, []⟩
    | .cancelled => ⟨[location.getD defaultLoc], false, []⟩
    | .passed _ =>
      ⟨[], true,
        leaving.map (fun l => (l.1, false, false)) ++
          next.map (fun n => (n.1, true, n.2))⟩

/-- What `Router._asyncOnLocationChange` does with one location event. -/
inductive ChangeOutcome where
  | noop
  | leftPrefix (pathname : List Char)
  | processed (chain : Except Unit (Option (List Entry)))
      (update : RouterUpdateResult)

/-- `Router._asyncOnLocationChange(nextLocation)` for the primary group:
return early when the location token is outdated, or when a committed
location exists and is location-equal to the incoming one; leave when the
pathname fails the prefix test; otherwise strip the prefix (empty becomes
`/`), run the tree matcher and the per-group update pipeline. -/
def asyncOnLocationChange (outdated : Bool) (location : Option Location)
    (routerPre : List Char) (children : List Node) (defaultLoc : Location)
    (stale : Nat → Bool) (leaving entering next : List (String × Bool))
    (nextLocation : Location) : ChangeOutcome :=
  if outdated then .noop
  else if (location.map (isLocationEqual · nextLocation)).getD false then
    .noop
  else if !testPathPrefix nextLocation.pathname routerPre then
    .leftPrefix nextLocation.pathname
  else
    let pathWithoutPre :=
      let stripped := nextLocation.pathname.drop routerPre.length
      if stripped.isEmpty then ['/'] else stripped
    .processed (matchChildren children pathWithoutPre)
      (routerUpdate location defaultLoc stale leaving entering next)

/-- The reactive flag fields of one `RouteMatch`. -/
structure MatchFlags where
  matched : Bool
  exactlyMatched : Bool
  deriving DecidableEq, Repr

/-- `RouteMatch._update(matched, exactlyMatched)`: set both fields. -/
def updateFlags (_s : MatchFlags) (matched exactlyMatched : Bool) :
    MatchFlags :=
  ⟨matched, exactlyMatched⟩

/-- The flags a `RouteMatch` is constructed with. -/
def initialFlags : MatchFlags := ⟨false, false⟩

/-- The service factory registered through `$service`: either none, or one
that completes synchronously with service `v`, or one that returns a
pending promise with identity `p`. -/
inductive ServiceFactory where
  | sync (v : Nat)
  | async (p : Nat)
  deriving DecidableEq, Repr

/-- The service cache fields of one `RouteMatch`: `_service` (the resolved
instance) and `_servicePromise` (the pending construction's promise
identity), plus a count of how many times the factory body has run. -/
structure ServiceCache where
  service : Option Nat
  servicePromise : Option Nat
  factoryRuns : Nat
  deriving DecidableEq, Repr

/-- The cache fields a `RouteMatch` is constructed with. -/
def initialServiceCache : ServiceCache := ⟨none, none, 0⟩

/-- What one `_getService()` access observes: nothing (no factory), the
pending promise identity, or the resolved service. -/
inductive ServiceObservation where
  | nothing
  | pending (p : Nat)
  | resolved (v : Nat)
  deriving DecidableEq, Repr

/-- `RouteMatch._getService()`: return `_service || _servicePromise` when
either is set; otherwise run the factory once, caching its synchronous
result in `_service` or its promise in `_servicePromise`. -/
def getServiceStep (factory : Option ServiceFactory) (s : ServiceCache) :
    ServiceCache × ServiceObservation :=
  match s.service with
  | some v => (s, .resolved v)
  | none =>
    match s.servicePromise with
    | some p => (s, .pending p)
    | none =>
      match factory with
      | none => (s, .nothing)
      | some (.sync v) =>
        ({s with service := some v, factoryRuns := s.factoryRuns + 1},
          .resolved v)
      | some (.async p) =>
        ({s with servicePromise := some p, factoryRuns := s.factoryRuns + 1},
          .pending p)

/-- The events that can touch a node's service cache over its lifetime:
a `_getService` access, the pending construction resolving with `v`
(the `.then` continuation assigns `_service`; it only exists once a
promise does), and `RouteMatch._update` — which assigns `_matched` and
`_exactlyMatched` only, so leaving and re-entering never clears the
cache. -/
inductive ServiceEvent where
  | access
  | resolve (v : Nat)
  | update (matched exactlyMatched : Bool)

/-- Effect of one lifetime event on the service cache. -/
def serviceEventStep (factory : Option ServiceFactory) (s : ServiceCache) :
    ServiceEvent → ServiceCache
  | .access => (getServiceStep factory s).1
  | .resolve v =>
    if s.servicePromise.isSome then {s with service := some v} else s
  | .update _ _ => s

/-- The service cache after a list of lifetime events. -/
def runServiceEvents (factory : Option ServiceFactory)
    (events : List ServiceEvent) : ServiceCache :=
  events.foldl (serviceEventStep factory) initialServiceCache

/-- A JavaScript value as the extension getter sees one: `undefined` or a
proper value. -/
inductive JSVal where
  | undef
  | val (n : Nat)
  deriving DecidableEq, Repr

/-- The extension getter installed by the `RouteMatch` constructor for an
extension key: `let service = this.$matched ? this._service : undefined;
return service ? service[key] : defaultValue;`. The service is modelled as
its property table (`f key = .undef` when the service does not define the
property). -/
def extensionValue (matched : Bool) (service : Option (String → JSVal))
    (defaultValue : JSVal) (key : String) : JSVal :=
  match (if matched then service else none) with
  | some svc => svc key
  | none => defaultValue

theorem finishNodeMatch_segment (seg : Option (List Char)) (rest : List Char)
    (hc aex : Bool) : (finishNodeMatch seg rest hc aex).segment = seg := by
  unfold finishNodeMatch
  dsimp only
  split <;> rfl

theorem finishNodeMatch_rest (seg : Option (List Char)) (rest : List Char)
    (hc aex : Bool) : (finishNodeMatch seg rest hc aex).rest = rest := by
  unfold finishNodeMatch
  dsimp only
  split <;> rfl

/-- Every `some` result of the single-node matcher is produced by the
shared flag-computation tail from its own segment and rest. -/
theorem routeMatchOne_eq_finish {pat : Pattern} {hc aex : Bool}
    {ur : List Char} {r : NodeMatchResult}
    (h : routeMatchOne pat hc aex ur = some r) :
    r = finishNodeMatch r.segment r.rest hc aex := by
  have base : ∀ seg rest, r = finishNodeMatch seg rest hc aex →
      r = finishNodeMatch r.segment r.rest hc aex := by
    intro seg rest hr
    rw [hr, finishNodeMatch_segment, finishNodeMatch_rest]
  cases ur with
  | nil =>
    simp only [routeMatchOne, Option.some.injEq] at h
    exact base _ _ h.symm
  | cons c cs =>
    simp only [routeMatchOne] at h
    split at h
    · simp only [Option.some.injEq] at h
      exact base _ _ h.symm
    · exact absurd h (by simp)

theorem finishNodeMatch_exact_eq (seg : Option (List Char))
    (rest : List Char) (hc aex : Bool) :
    (finishNodeMatch seg rest hc aex).exactlyMatched =
      ((finishNodeMatch seg rest hc aex).matched && rest.isEmpty) := by
  unfold finishNodeMatch
  dsimp only
  split <;> simp_all

theorem finishNodeMatch_demote {seg : Option (List Char)} {rest : List Char}
    (hseg : seg.isSome = true) (hrest : rest = []) :
    finishNodeMatch seg rest true false =
      ⟨false, false, seg, rest⟩ := by
  unfold finishNodeMatch
  subst hrest
  simp [hseg]

theorem finishNodeMatch_no_demote {seg : Option (List Char)}
    {rest : List Char} {hc aex : Bool} (hseg : seg.isSome = true)
    (hrest : rest = []) (hallow : hc = false ∨ aex = true) :
    (finishNodeMatch seg rest hc aex).matched = true ∧
      (finishNodeMatch seg rest hc aex).exactlyMatched = true := by
  unfold finishNodeMatch
  subst hrest
  rcases hallow with h | h <;> subst h <;> simp [hseg]

/-- Concrete schema `{x: {$children: {y: {}}}}`: the child node. -/
def nodeY : Node := .mk "y" (.lit ['y']) false false []

/-- Concrete schema `{x: {$children: {y: {}}}}`: the parent node. -/
def nodeX : Node := .mk "x" (.lit ['x']) false true [nodeY]

/-- The node `x` with `$exact: true` declared. -/
def nodeXExact : Node := .mk "x" (.lit ['x']) true true [nodeY]

/-- The node `x` without children. -/
def nodeXLeaf : Node := .mk "x" (.lit ['x']) false false []

/-- C2: the single-node matcher returns
`exactlyMatched = matched && rest === ''`, and when the segment matched
with nothing left but the node has children and did not declare `$exact`,
both flags are demoted to `false`. Concretely, for schema
`{x: {$children: {y: {}}}}`, `/x/y` matches `y` exactly, `/x` yields no
chain, and `/x` matches `x` exactly once `x` declares `$exact` or has no
children. -/
theorem single_node_matcher_exactness :
    (∀ (pat : Pattern) (hc aex : Bool) (ur : List Char)
        (r : NodeMatchResult), routeMatchOne pat hc aex ur = some r →
        (r.exactlyMatched = (r.matched && r.rest.isEmpty)) ∧
        (r.segment.isSome = true → r.rest = [] → hc = true → aex = false →
          r.matched = false ∧ r.exactlyMatched = false) ∧
        (r.segment.isSome = true → r.rest = [] →
          (hc = false ∨ aex = true) →
          r.matched = true ∧ r.exactlyMatched = true)) ∧
    (matchChildren [nodeX] ['/', 'x', '/', 'y'] =
      .ok (some [⟨nodeX, ['x'], false⟩, ⟨nodeY, ['y'], true⟩])) ∧
    matchChildren [nodeX] ['/', 'x'] = .ok none ∧
    (matchChildren [nodeXExact] ['/', 'x'] =
      .ok (some [⟨nodeXExact, ['x'], true⟩])) ∧
    (matchChildren [nodeXLeaf] ['/', 'x'] =
      .ok (some [⟨nodeXLeaf, ['x'], true⟩])) := by
  refine ⟨?_, ?_, ?_, ?_, ?_⟩
  · intro pat hc aex ur r h
    have hfin := routeMatchOne_eq_finish h
    refine ⟨?_, ?_, ?_⟩
    · conv_lhs => rw [hfin]
      rw [finishNodeMatch_exact_eq]
      conv_rhs => rw [hfin, finishNodeMatch_rest]
    · intro hseg hrest hhc haex
      subst hhc
      subst haex
      rw [hfin, finishNodeMatch_demote hseg hrest]
      exact ⟨rfl, rfl⟩
    · intro hseg hrest hallow
      rw [hfin]
      exact finishNodeMatch_no_demote hseg hrest hallow
  · simp [matchChildren, nodeX, nodeY, routeMatchOne, testPathPrefix,
      finishNodeMatch, List.isPrefixOf]
  · simp [matchChildren, nodeX, nodeY, routeMatchOne, testPathPrefix,
      finishNodeMatch, List.isPrefixOf]
  · simp [matchChildren, nodeXExact, routeMatchOne, testPathPrefix,
      finishNodeMatch, List.isPrefixOf]
  · simp [matchChildren, nodeXLeaf, routeMatchOne, testPathPrefix,
      finishNodeMatch, List.isPrefixOf]

/-- C2 witness: the universal part applied at the literal pattern `x` with
children and no `$exact`, on path `/x`. -/
theorem single_node_matcher_exactness_witness :
    (routeMatchOne (.lit ['x']) true false ['/', 'x']).any
      (fun r => !r.matched && !r.exactlyMatched) = true := by
  have h : routeMatchOne (.lit ['x']) true false ['/', 'x'] =
      some ⟨false, false, some ['x'], []⟩ := by
    simp [routeMatchOne, testPathPrefix, finishNodeMatch, List.isPrefixOf]
  have hmain := single_node_matcher_exactness.1 (.lit ['x']) true false
    ['/', 'x'] ⟨false, false, some ['x'], []⟩ h
  obtain ⟨hd, -⟩ := hmain.2.1 (by simp) rfl rfl rfl
  rw [h]
  simp [hd]

theorem testPathPrefix_iff (cs p : List Char) :
    testPathPrefix cs p = true ↔
      (p <+: cs ∧ (cs.length = p.length ∨ cs.get? p.length = some '/')) := by
  simp [testPathPrefix, List.isPrefixOf_iff_prefix]

/-- C8: for a literal pattern and a non-empty remaining path, after the
leading `/` is stripped the literal matching step succeeds (assigns the
segment) exactly when the remainder starts with the literal and the
character immediately after the literal is absent or `/`, and on success
`rest` is exactly the substring following the literal. -/
theorem literal_segment_boundary :
    ∀ (p cs : List Char) (hc aex : Bool) (r : NodeMatchResult),
      routeMatchOne (.lit p) hc aex ('/' :: cs) = some r →
      ((r.segment = some p) ↔
        (p <+: cs ∧ (cs.length = p.length ∨ cs.get? p.length = some '/'))) ∧
      (r.segment = some p → r.rest = cs.drop p.length) ∧
      (r.segment = some p ∨ r.segment = none) := by
  intro p cs hc aex r h
  by_cases htp : testPathPrefix cs p
  · have h2 : routeMatchOne (.lit p) hc aex ('/' :: cs) =
        some (finishNodeMatch (some p) (cs.drop p.length) hc aex) := by
      simp [routeMatchOne, htp]
    rw [h2] at h
    have hr : r = finishNodeMatch (some p) (cs.drop p.length) hc aex :=
      (Option.some.injEq _ _ ▸ h).symm
    rw [hr, finishNodeMatch_segment, finishNodeMatch_rest]
    have hx := (testPathPrefix_iff cs p).mp htp
    exact ⟨⟨fun _ => hx, fun _ => rfl⟩, fun _ => rfl, Or.inl rfl⟩
  · have h2 : routeMatchOne (.lit p) hc aex ('/' :: cs) =
        some (finishNodeMatch none [] hc aex) := by
      simp [routeMatchOne, htp]
    rw [h2] at h
    have hr : r = finishNodeMatch none [] hc aex :=
      (Option.some.injEq _ _ ▸ h).symm
    rw [hr, finishNodeMatch_segment]
    refine ⟨⟨fun hx => absurd hx (by simp), fun hx => ?_⟩,
      fun hx => absurd hx (by simp), Or.inr rfl⟩
    exact absurd ((testPathPrefix_iff cs p).mpr hx) htp

/-- C8 witness: the theorem applied to pattern `x` on path `/x/y`. -/
theorem literal_segment_boundary_witness :
    ((some ['x'] = some ['x']) ↔
      (['x'] <+: ['x', '/', 'y'] ∧
        (['x', '/', 'y'].length = ['x'].length ∨
          ['x', '/', 'y'].get? ['x'].length = some '/'))) ∧
    (some ['x'] = some ['x'] → ['/', 'y'] = ['x', '/', 'y'].drop 1) ∧
    ((some ['x'] : Option (List Char)) = some ['x'] ∨
      (some ['x'] : Option (List Char)) = none) := by
  have h : routeMatchOne (.lit ['x']) true false ['/', 'x', '/', 'y'] =
      some ⟨true, false, some ['x'], ['/', 'y']⟩ := by
    simp [routeMatchOne, testPathPrefix, finishNodeMatch, List.isPrefixOf]
  exact literal_segment_boundary ['x'] ['x', '/', 'y'] true false
    ⟨true, false, some ['x'], ['/', 'y']⟩ h

/-- C10: the rest returned by the single-node matcher is empty or starts
with `/`, so the tree matcher's recursion preserves the single-node
matcher's precondition and the `Expecting rest of path to be started
with "/"` branch is unreachable from any well-formed top-level path. -/
theorem rest_wf_no_throw :
    (∀ (pat : Pattern) (hc aex : Bool) (ur : List Char)
        (r : NodeMatchResult), routeMatchOne pat hc aex ur = some r →
        (r.rest = [] ∨ r.rest.head? = some '/')) ∧
    (∀ (ns : List Node) (path : List Char), isWfPath path = true →
        matchChildren ns path ≠ .error ()) := by
  constructor
  · intro pat hc aex ur r h
    have hwf := routeMatchOne_rest_wf h
    simp only [isWfPath, Bool.or_eq_true, List.isEmpty_iff, beq_iff_eq]
      at hwf
    exact hwf
  · intro ns path hwf
    rw [matchChildren_eq_allChains ns path hwf]
    simp

/-- C10 witness: the theorem applied to pattern `x` on path `/x/y` and to
the concrete schema on path `/x`. -/
theorem rest_wf_no_throw_witness :
    ((['/', 'y'] : List Char) = [] ∨
      (['/', 'y'] : List Char).head? = some '/') ∧
    matchChildren [nodeX] ['/', 'x'] ≠ .error () := by
  constructor
  · exact rest_wf_no_throw.1 (.lit ['x']) true false ['/', 'x', '/', 'y']
      ⟨true, false, some ['x'], ['/', 'y']⟩
      (by simp [routeMatchOne, testPathPrefix, finishNodeMatch,
        List.isPrefixOf])
  · exact rest_wf_no_throw.2 [nodeX] ['/', 'x'] (by decide)

/-- First of two sibling nodes whose literals both match the segment `x`. -/
def nodeA : Node := .mk "a" (.lit ['x']) false false []

/-- Second of two sibling nodes whose literals both match the segment `x`. -/
def nodeB : Node := .mk "b" (.lit ['x']) false false []

/-- C3: the tree matcher is the depth-first declaration-order chain search
with backtracking — it returns the head of the declaration-order
enumeration of all complete chains, so the first complete chain found
wins. When two sibling schemas both match, the first declared one is
returned and no ambiguity error is raised, and swapping the declaration
order swaps the result. -/
theorem tree_matcher_first_chain :
    (∀ (ns : List Node) (path : List Char), isWfPath path = true →
        matchChildren ns path = .ok (allChains ns path).head?) ∧
    (matchChildren [nodeA, nodeB] ['/', 'x'] =
      .ok (some [⟨nodeA, ['x'], true⟩])) ∧
    (matchChildren [nodeB, nodeA] ['/', 'x'] =
      .ok (some [⟨nodeB, ['x'], true⟩])) ∧
    allChains [nodeA, nodeB] ['/', 'x'] =
      [[⟨nodeA, ['x'], true⟩], [⟨nodeB, ['x'], true⟩]] := by
  refine ⟨matchChildren_eq_allChains, ?_, ?_, ?_⟩ <;>
    simp [matchChildren, allChains, nodeA, nodeB, routeMatchOne,
      testPathPrefix, finishNodeMatch, List.isPrefixOf]

/-- C3 witness: the universal part applied to the ambiguous sibling pair
on path `/x`. -/
theorem tree_matcher_first_chain_witness :
    matchChildren [nodeA, nodeB] ['/', 'x'] =
      .ok (allChains [nodeA, nodeB] ['/', 'x']).head? :=
  tree_matcher_first_chain.1 [nodeA, nodeB] ['/', 'x'] (by decide)

theorem runHooks_no_stale (rs : List Bool) (k : Nat) :
    runHooks (fun _ => false) rs k =
      if rs.contains false then .cancelled else .passed (k + rs.length) := by
  induction rs generalizing k with
  | nil => simp [runHooks]
  | cons r rs ih =>
    cases r with
    | false =>
      have hstep : runHooks (fun _ => false) (false :: rs) k =
          .cancelled := rfl
      rw [hstep]
      simp
    | true =>
      have hstep : runHooks (fun _ => false) (true :: rs) k =
          runHooks (fun _ => false) rs (k + 1) := rfl
      rw [hstep, ih (k + 1)]
      have hc : (true :: rs).contains false = rs.contains false := by simp
      rw [hc]
      split
      · rfl
      · congr 1
        simp only [List.length_cons]
        omega

theorem runHooks_passes (stale : Nat → Bool) :
    ∀ (rs : List Bool) (k : Nat),
      (∀ j, j < rs.length →
        stale (k + j + 1) = false ∧ rs.getD j true = true) →
      runHooks stale rs k = .passed (k + rs.length) := by
  intro rs
  induction rs with
  | nil =>
    intro k _
    simp [runHooks]
  | cons r rs ih =>
    intro k hcond
    obtain ⟨hs, hr⟩ := hcond 0 (by simp)
    simp only [List.getD_cons_zero] at hr
    rw [show k + 0 + 1 = k + 1 from by omega] at hs
    rw [runHooks, hs, if_neg (by simp), hr]
    simp only [Bool.not_true, if_false]
    have hrec := ih (k + 1) (fun j hj => by
      obtain ⟨h1, h2⟩ := hcond (j + 1) (by simpa using Nat.succ_lt_succ hj)
      refine ⟨?_, by simpa using h2⟩
      rw [show k + 1 + j + 1 = k + (j + 1) + 1 from by omega]
      exact h1)
    rw [hrec, if_neg (by simp)]
    congr 1
    simp only [List.length_cons]
    omega

theorem runHooks_abandons (stale : Nat → Bool) :
    ∀ (rs : List Bool) (k i : Nat), i < rs.length →
      stale (k + i + 1) = true →
      (∀ j, j < i → stale (k + j + 1) = false ∧ rs.getD j true = true) →
      runHooks stale rs k = .abandoned := by
  intro rs
  induction rs with
  | nil =>
    intro k i hi
    simp at hi
  | cons r rs ih =>
    intro k i hi hstale hcond
    cases i with
    | zero =>
      rw [show k + 0 + 1 = k + 1 from by omega] at hstale
      rw [runHooks, hstale]
      simp
    | succ i =>
      obtain ⟨hs, hr⟩ := hcond 0 (Nat.succ_pos i)
      simp only [List.getD_cons_zero] at hr
      rw [show k + 0 + 1 = k + 1 from by omega] at hs
      rw [runHooks, hs, if_neg (by simp), hr]
      simp only [Bool.not_true, if_false]
      refine ih (k + 1) i (by simpa using hi) ?_ (fun j hj => ?_)
      · rw [show k + 1 + i + 1 = k + (i + 1) + 1 from by omega]
        exact hstale
      · obtain ⟨h1, h2⟩ := hcond (j + 1) (Nat.succ_lt_succ hj)
        refine ⟨?_, by simpa using h2⟩
        rw [show k + 1 + j + 1 = k + (j + 1) + 1 from by omega]
        exact h1

/-- C1: in a transition that is never superseded (the staleness check
stays false, the case step 9 of the pipeline leaves to this rule), if some
awaited before-hook resolves to `false`, the per-group update makes
exactly one `replace` call carrying the committed location — or the
configured default when none has been committed — and performs no commit
and no `RouteMatch._update` call, leaving every node's flags unchanged. -/
theorem cancellation_single_revert :
    ∀ (location : Option Location) (defaultLoc : Location)
      (leaving entering next : List (String × Bool)),
      ((leaving.map (·.2)).contains false = true ∨
        (entering.map (·.2)).contains false = true) →
      routerUpdate location defaultLoc (fun _ => false) leaving entering
          next =
        ⟨[location.getD defaultLoc], false, []⟩ := by
  intro loc dflt leaving entering next hcancel
  cases hl : (leaving.map (·.2)).contains false with
  | true =>
    have h1 : runHooks (fun _ => false) (leaving.map (·.2)) 0 =
        .cancelled := by
      rw [runHooks_no_stale, hl]
      rfl
    simp only [routerUpdate, h1]
  | false =>
    have he : (entering.map (·.2)).contains false = true := by
      rcases hcancel with h | h
      · rw [hl] at h
        exact absurd h (by simp)
      · exact h
    have h1 : runHooks (fun _ => false) (leaving.map (·.2)) 0 =
        .passed (0 + (leaving.map (·.2)).length) := by
      rw [runHooks_no_stale, hl]
      rfl
    have h2 : runHooks (fun _ => false) (entering.map (·.2))
        (0 + (leaving.map (·.2)).length) = .cancelled := by
      rw [runHooks_no_stale, he]
      rfl
    simp only [routerUpdate, h1, h2]

/-- C1 witness: a single leaving node whose `beforeLeave` resolves to
`false`, with a committed location present. -/
theorem cancellation_single_revert_witness :
    routerUpdate (some ⟨['/', 'a'], [], []⟩) ⟨['/'], [], []⟩
        (fun _ => false) [("a", false)] [] [] =
      ⟨[⟨['/', 'a'], [], []⟩], false, []⟩ := by
  have h := cancellation_single_revert (some ⟨['/', 'a'], [], []⟩)
    ⟨['/'], [], []⟩ [("a", false)] [] [] (Or.inl (by decide))
  simpa using h

/-- C4: whenever the staleness check that follows an awaited before-hook
sees that a newer location has been recorded — all earlier checks having
passed and all earlier hooks having approved — the transition is
abandoned silently: no replace call, no commit, and no flag update, even
when the hook that just ran returned `false`. -/
theorem superseded_abandons_silently :
    ∀ (location : Option Location) (defaultLoc : Location)
      (stale : Nat → Bool) (leaving entering next : List (String × Bool))
      (i : Nat), i < leaving.length + entering.length →
      stale (i + 1) = true →
      (∀ j, j < i → stale (j + 1) = false ∧
        (leaving.map (·.2) ++ entering.map (·.2)).getD j true = true) →
      routerUpdate location defaultLoc stale leaving entering next =
        ⟨[], false, []⟩ := by
  intro loc dflt stale leaving entering next i hi hstale hcond
  have hlm : (leaving.map (·.2)).length = leaving.length := by simp
  have hem : (entering.map (·.2)).length = entering.length := by simp
  by_cases hcase : i < leaving.length
  · have h1 : runHooks stale (leaving.map (·.2)) 0 = .abandoned := by
      refine runHooks_abandons stale _ 0 i (by omega) ?_ (fun j hj => ?_)
      · rw [show 0 + i + 1 = i + 1 from by omega]
        exact hstale
      · obtain ⟨ha, hb⟩ := hcond j hj
        refine ⟨by rw [show 0 + j + 1 = j + 1 from by omega]; exact ha, ?_⟩
        rw [← List.getD_append _ _ _ _ (by omega)]
        exact hb
    simp only [routerUpdate, h1]
  · have hL : leaving.length ≤ i := Nat.le_of_not_lt hcase
    have h1 : runHooks stale (leaving.map (·.2)) 0 =
        .passed (0 + (leaving.map (·.2)).length) := by
      refine runHooks_passes stale _ 0 (fun j hj => ?_)
      have hji : j < i := by omega
      obtain ⟨ha, hb⟩ := hcond j hji
      refine ⟨by rw [show 0 + j + 1 = j + 1 from by omega]; exact ha, ?_⟩
      rw [← List.getD_append _ _ _ _ hj]
      exact hb
    have h2 : runHooks stale (entering.map (·.2))
        (0 + (leaving.map (·.2)).length) = .abandoned := by
      refine runHooks_abandons stale _ _ (i - leaving.length) (by omega) ?_
        (fun j hj => ?_)
      · rw [show 0 + (leaving.map (·.2)).length + (i - leaving.length) + 1 =
          i + 1 from by omega]
        exact hstale
      · have hLj : leaving.length + j < i := by omega
        obtain ⟨ha, hb⟩ := hcond (leaving.length + j) hLj
        have hb2 : (entering.map (·.2)).getD j true = true := by
          rw [List.getD_append_right _ _ _ _ (by omega)] at hb
          rw [show leaving.length + j - (leaving.map (·.2)).length = j from
            by omega] at hb
          exact hb
        refine ⟨?_, hb2⟩
        rw [show 0 + (leaving.map (·.2)).length + j + 1 =
          leaving.length + j + 1 from by omega]
        exact ha
    simp only [routerUpdate, h1, h2]

/-- C4 witness: the sole before-hook returns `false`, but a newer location
was recorded while it was awaited: the transition is dropped with no
replace, no commit and no flag change. -/
theorem superseded_abandons_silently_witness :
    routerUpdate (some ⟨['/', 'a'], [], []⟩) ⟨['/'], [], []⟩
        (fun n => n == 1) [("a", false)] [] [] =
      ⟨[], false, []⟩ := by
  refine superseded_abandons_silently (some ⟨['/', 'a'], [], []⟩)
    ⟨['/'], [], []⟩ (fun n => n == 1) [("a", false)] [] [] 0 (by decide)
    (by decide) (fun j hj => absurd hj (by omega))

/-- C5: when the incoming location is location-equal (same pathname,
search and hash) to the committed location, the pipeline returns before
matching, hooks or any state change: submitting the same location twice
in succession triggers nothing on the second submission. -/
theorem idempotent_navigation :
    ∀ (outdated : Bool) (l : Location) (routerPre : List Char)
      (children : List Node) (defaultLoc : Location) (stale : Nat → Bool)
      (leaving entering next : List (String × Bool))
      (nextLocation : Location), isLocationEqual l nextLocation = true →
      asyncOnLocationChange outdated (some l) routerPre children defaultLoc
        stale leaving entering next nextLocation = .noop := by
  intro outdated l routerPre children defaultLoc stale leaving entering
    next nextLocation heq
  cases outdated with
  | true => rfl
  | false =>
    unfold asyncOnLocationChange
    simp [heq]

/-- C5 witness: the theorem applied to a committed location and an
incoming location with identical pathname, search and hash. -/
theorem idempotent_navigation_witness :
    asyncOnLocationChange false (some ⟨['/', 'x'], [], []⟩) []
        [nodeXLeaf] ⟨['/'], [], []⟩ (fun _ => false) [] [] []
        ⟨['/', 'x'], [], []⟩ = .noop :=
  idempotent_navigation false ⟨['/', 'x'], [], []⟩ [] [nodeXLeaf]
    ⟨['/'], [], []⟩ (fun _ => false) [] [] [] ⟨['/', 'x'], [], []⟩
    (by decide)

/-- C9: `$exact` implies `$matched` at every reachable state: the initial
flags satisfy it, every `_update` call the orchestrator issues is either
`_update(false, false)` for a leaving node or `_update(true, exact)` for a
node of the next match set, and applying any such call preserves the
implication. -/
theorem exact_implies_matched :
    (initialFlags.exactlyMatched = true → initialFlags.matched = true) ∧
    (∀ (location : Option Location) (defaultLoc : Location)
        (stale : Nat → Bool) (leaving entering next : List (String × Bool))
        (u : String × Bool × Bool),
        u ∈ (routerUpdate location defaultLoc stale leaving entering
          next).flagUpdates → u.2.2 = true → u.2.1 = true) ∧
    (∀ (s : MatchFlags) (m e : Bool), (e = true → m = true) →
      (updateFlags s m e).exactlyMatched = true →
        (updateFlags s m e).matched = true) := by
  refine ⟨by simp [initialFlags], ?_, ?_⟩
  · intro loc dflt stale leaving entering next u hu
    unfold routerUpdate at hu
    split at hu
    · simp at hu
    · simp at hu
    · split at hu
      · simp at hu
      · simp at hu
      · simp only [List.mem_append, List.mem_map] at hu
        rcases hu with ⟨a, -, ha⟩ | ⟨a, -, ha⟩
        · rw [← ha]
          intro h
          exact absurd h (by simp)
        · rw [← ha]
          intro _
          rfl
  · intro s m e h hx
    exact h hx

/-- C9 witness: the flag-preservation parts applied to a concrete commit
of one entered node and to a concrete `_update(true, true)` call. -/
theorem exact_implies_matched_witness :
    ((("n", true, true) : String × Bool × Bool).2.2 = true →
      (("n", true, true) : String × Bool × Bool).2.1 = true) ∧
    ((updateFlags initialFlags true true).exactlyMatched = true →
      (updateFlags initialFlags true true).matched = true) := by
  constructor
  · refine exact_implies_matched.2.1 none ⟨['/'], [], []⟩ (fun _ => false)
      [] [] [("n", true)] ("n", true, true) ?_
    simp [routerUpdate, runHooks]
  · exact exact_implies_matched.2.2 initialFlags true true (fun h => h)

/-- Invariant tying the service cache fields to the factory-run count:
the factory has run at most once, and it has run exactly once when either
cache field is populated. -/
def cacheInv (s : ServiceCache) : Prop :=
  s.factoryRuns ≤ 1 ∧
    ((s.service = none ∧ s.servicePromise = none) ↔ s.factoryRuns = 0)

theorem serviceEventStep_inv (factory : Option ServiceFactory)
    (s : ServiceCache) (e : ServiceEvent) (h : cacheInv s) :
    cacheInv (serviceEventStep factory s e) := by
  obtain ⟨h1, h2⟩ := h
  cases e with
  | update m ex => exact ⟨h1, h2⟩
  | resolve v =>
    unfold serviceEventStep
    cases hp : s.servicePromise with
    | none => simpa [hp] using ⟨h1, h2⟩
    | some p =>
      have hruns : s.factoryRuns = 1 := by
        rcases Nat.lt_or_ge s.factoryRuns 1 with hlt | hge
        · have h0 : s.factoryRuns = 0 := by omega
          have := h2.mpr h0
          rw [hp] at this
          exact absurd this.2 (by simp)
        · omega
      simp [hp, cacheInv, hruns]
  | access =>
    unfold serviceEventStep getServiceStep
    cases hs : s.service with
    | some v => simpa [hs] using ⟨h1, h2⟩
    | none =>
      cases hp : s.servicePromise with
      | some p => simpa [hs, hp] using ⟨h1, h2⟩
      | none =>
        have h0 : s.factoryRuns = 0 := h2.mp ⟨hs, hp⟩
        cases factory with
        | none => simpa [hs, hp] using ⟨h1, h2⟩
        | some f =>
          cases f with
          | sync v => simp [hs, hp, cacheInv, h0]
          | async p => simp [hs, hp, cacheInv, h0]

theorem runServiceEvents_inv (factory : Option ServiceFactory)
    (events : List ServiceEvent) :
    cacheInv (runServiceEvents factory events) := by
  have hfold : ∀ (l : List ServiceEvent) (s : ServiceCache), cacheInv s →
      cacheInv (l.foldl (serviceEventStep factory) s) := by
    intro l
    induction l with
    | nil => intro s hs; exact hs
    | cons e l ih =>
      intro s hs
      exact ih _ (serviceEventStep_inv factory s e hs)
  exact hfold events initialServiceCache ⟨by simp [initialServiceCache],
    by simp [initialServiceCache]⟩

/-- C6: the service factory body runs at most once over a node's entire
lifetime of accesses, promise resolutions and `_update` calls; while an
asynchronous construction is pending every access observes the same
pending promise and leaves the cache untouched; a cached service is
returned unchanged on every later access; and `_update` (leaving and
re-entering) never touches the cache, so the service is not recreated. -/
theorem service_factory_at_most_once :
    (∀ (factory : Option ServiceFactory) (events : List ServiceEvent),
        (runServiceEvents factory events).factoryRuns ≤ 1) ∧
    (∀ (factory : Option ServiceFactory) (s : ServiceCache) (p : Nat)
        (e : ServiceEvent), s.servicePromise = some p →
        (serviceEventStep factory s e).servicePromise = some p) ∧
    (∀ (factory : Option ServiceFactory) (s : ServiceCache) (p : Nat),
        s.service = none → s.servicePromise = some p →
        getServiceStep factory s = (s, .pending p)) ∧
    (∀ (factory : Option ServiceFactory) (s : ServiceCache) (v : Nat),
        s.service = some v → getServiceStep factory s = (s, .resolved v)) ∧
    (∀ (factory : Option ServiceFactory) (s : ServiceCache) (m e : Bool),
        serviceEventStep factory s (.update m e) = s) := by
  refine ⟨fun factory events => (runServiceEvents_inv factory events).1,
    ?_, ?_, ?_, fun _ _ _ _ => rfl⟩
  · intro factory s p e hp
    cases e with
    | update m ex => exact hp
    | resolve v => simp [serviceEventStep, hp]
    | access =>
      unfold serviceEventStep getServiceStep
      cases hs : s.service with
      | some v => exact hp
      | none => simp [hp]
  · intro factory s p hs hp
    unfold getServiceStep
    simp [hs, hp]
  · intro factory s v hs
    unfold getServiceStep
    simp [hs]

/-- C6 witness: an async factory accessed twice while pending, resolved,
then left and re-entered — the factory ran once; plus the cached-service
and pending-promise observations at concrete cache states. -/
theorem service_factory_at_most_once_witness :
    (runServiceEvents (some (.async 7))
      [.access, .access, .resolve 3, .update false false,
        .update true true, .access]).factoryRuns ≤ 1 ∧
    getServiceStep (some (.async 7)) ⟨none, some 7, 1⟩ =
      (⟨none, some 7, 1⟩, .pending 7) ∧
    getServiceStep (some (.async 7)) ⟨some 3, some 7, 1⟩ =
      (⟨some 3, some 7, 1⟩, .resolved 3) := by
  refine ⟨service_factory_at_most_once.1 (some (.async 7)) _, ?_, ?_⟩
  · exact service_factory_at_most_once.2.2.1 (some (.async 7))
      ⟨none, some 7, 1⟩ 7 rfl rfl
  · exact service_factory_at_most_once.2.2.2.1 (some (.async 7))
      ⟨some 3, some 7, 1⟩ 3 rfl

/-- C7 counterexample: a matched node whose constructed service does not
define the extension key: the getter evaluates `service[key]`, yielding
`undefined`, not the static schema default `0` the claim promises. -/
theorem extension_default_counterexample :
    extensionValue true (some (fun _ => .undef)) (.val 0) "tick" =
        .undef ∧
      JSVal.undef ≠ JSVal.val 0 :=
  ⟨rfl, by simp⟩

/-- C7 (amended): while the node is matched and a service instance has
been constructed, reading an extension key yields the service's property
read — `undefined` when the service does not define the property; the
static schema default is returned exactly when the node is unmatched or
no service instance is present (including while an asynchronous
construction is still pending). -/
theorem extension_value_resolution :
    (∀ (dflt : JSVal) (key : String) (svc : String → JSVal),
        extensionValue true (some svc) dflt key = svc key) ∧
    (∀ (matched : Bool) (service : Option (String → JSVal)) (dflt : JSVal)
        (key : String), matched = false ∨ service = none →
        extensionValue matched service dflt key = dflt) := by
  refine ⟨fun dflt key svc => rfl, ?_⟩
  intro matched service dflt key h
  rcases h with h | h
  · rw [h]
    rfl
  · rw [h]
    cases matched <;> rfl

/-- C7 witness: the amended rule applied to an unmatched node with a
service present, returning the static default. -/
theorem extension_value_resolution_witness :
    extensionValue false (some (fun _ => JSVal.val 5)) (.val 0) "tick" =
      .val 0 :=
  extension_value_resolution.2 false (some (fun _ => JSVal.val 5)) (.val 0)
    "tick" (Or.inl rfl)

end BoringRouter
